import Mathlib

/-!
Verification of the `magic-league` swiss-pairing solver (`swiss.py`).

The development shallowly embeds the program's data model and algorithms:
z3 boolean terms become an inductive `Formula` type with an evaluator,
the constraint generators (`PopCount`, `EnumeratedPopCount`, `MakeSlots`,
`NoRepeatMatches`, `MismatchSum`) become Lean functions over that type,
the binary-search optimization loop of `Pairer.Search` becomes a step
relation on an explicit solver-stack state, and the random-graph sampler
(`Graphical`, `ArrayDecrement`, `BlitzsteinDiaconis`) becomes fuel-indexed
executable functions with the random choices abstracted into a `pick`
oracle parameter.  Python lists mutated in place are additionally modelled
by an explicit heap (`List (List ℤ)` with indices as references) where
aliasing questions matter.
-/

namespace Swiss

/-! ## Boolean formulas: shallow model of z3 terms

`z3.And` / `z3.Or` applied to python lists are modelled by folding the
binary connectives over a list (`AndL`, `OrL`); `z3.And([])` is true and
`z3.Or([])` is false, exactly as in z3. -/

inductive Formula (α : Type) where
  | tt : Formula α
  | ff : Formula α
  | var : α → Formula α
  | not : Formula α → Formula α
  | and : Formula α → Formula α → Formula α
  | or : Formula α → Formula α → Formula α
  | implies : Formula α → Formula α → Formula α
deriving DecidableEq

def eval (ρ : α → Bool) : Formula α → Bool
  | .tt => true
  | .ff => false
  | .var v => ρ v
  | .not f => !(eval ρ f)
  | .and f g => eval ρ f && eval ρ g
  | .or f g => eval ρ f || eval ρ g
  | .implies f g => !(eval ρ f) || eval ρ g

def AndL (fs : List (Formula α)) : Formula α := fs.foldr .and .tt

def OrL (fs : List (Formula α)) : Formula α := fs.foldr .or .ff

@[simp] theorem eval_AndL (ρ : α → Bool) (fs : List (Formula α)) :
    eval ρ (AndL fs) = fs.all (eval ρ) := by
  induction fs with
  | nil => rfl
  | cons f fs ih => simp [AndL, eval] at ih ⊢; rw [ih]

@[simp] theorem eval_OrL (ρ : α → Bool) (fs : List (Formula α)) :
    eval ρ (OrL fs) = fs.any (eval ρ) := by
  induction fs with
  | nil => rfl
  | cons f fs ih => simp [OrL, eval] at ih ⊢; rw [ih]

theorem all_map_eval (ρ : α → Bool) (l : List β) (f : β → Formula α) :
    (l.map f).all (eval ρ) = l.all (fun b => eval ρ (f b)) := by
  induction l with
  | nil => rfl
  | cons x xs ih => simp only [List.map_cons, List.all_cons, ih]

theorem any_map_eval (ρ : α → Bool) (l : List β) (f : β → Formula α) :
    (l.map f).any (eval ρ) = l.any (fun b => eval ρ (f b)) := by
  induction l with
  | nil => rfl
  | cons x xs ih => simp only [List.map_cons, List.any_cons, ih]

/-! ## Cardinality constraints: `PopCount` and `EnumeratedPopCount`

Direct transcriptions of `swiss.py` lines 106-132.  `EnumeratedPopCount`
enumerates the size-`n` combinations of `enumerate(vs)`
(`List.sublistsLen n vs.enum`); `PopCount` dispatches to it for
`n ∈ {1,2,3}`, handles `n = 0` by negating the disjunction, and for larger
`n` uses the recursive split at every position `i` requiring the counts of
`vs[:i]` and `vs[i+1:]` to sum to `n - 1` whenever `vs[i]` is true. -/

def EnumeratedPopCount [DecidableEq α] (vs : List α) (n : ℕ) : Formula α :=
  if n = 0 then .not (OrL (vs.map .var))
  else OrL ((vs.enum.sublistsLen n).map (fun combo =>
    AndL (vs.enum.map (fun iv => if iv ∈ combo then .var iv.2 else .not (.var iv.2)))))

def PopCount [DecidableEq α] (vs : List α) (n : ℕ) : Formula α :=
  if n = 0 then .not (OrL (vs.map .var))
  else if n = 1 ∨ n = 2 ∨ n = 3 then EnumeratedPopCount vs n
  else AndL (OrL (vs.map .var) ::
    vs.enum.map (fun iv =>
      OrL ((List.range n).attach.map (fun a =>
        AndL [.implies (.var iv.2) (PopCount (vs.take iv.1) a.1),
              .implies (.var iv.2) (PopCount (vs.drop (iv.1 + 1)) (n - 1 - a.1))]))))
termination_by n
decreasing_by
  · exact List.mem_range.mp a.2
  · have ha := List.mem_range.mp a.2
    omega

/-! ### Correctness of the cardinality encodings -/

theorem countP_enumFrom (p : α → Bool) (l : List α) (k : ℕ) :
    (List.enumFrom k l).countP (fun iv => p iv.2) = l.countP p := by
  induction l generalizing k with
  | nil => rfl
  | cons x xs ih => simp [List.enumFrom, List.countP_cons, ih]

theorem countP_enum (p : α → Bool) (l : List α) :
    l.enum.countP (fun iv => p iv.2) = l.countP p :=
  countP_enumFrom p l 0

theorem enum_nodup (l : List α) : l.enum.Nodup :=
  List.Nodup.of_map Prod.fst (List.nodup_enum_map_fst l)

theorem filter_mem_of_sublist [DecidableEq β] {c l : List β} (p : β → Bool)
    (hp : ∀ x, p x = true ↔ x ∈ c) (h : List.Sublist c l) (hn : l.Nodup) :
    l.filter p = c := by
  induction h generalizing p with
  | slnil => rfl
  | @cons l₁ l₂ a h ih =>
    have ha : a ∉ l₂ := (List.nodup_cons.mp hn).1
    have hpa : p a = false := by
      have hac : ¬(p a = true) := fun htrue => ha (h.subset ((hp a).mp htrue))
      exact Bool.eq_false_iff.mpr hac
    simp only [List.filter_cons, hpa, Bool.false_eq_true, if_false]
    exact ih p hp (List.nodup_cons.mp hn).2
  | @cons₂ l₁ l₂ a h ih =>
    have ha : a ∉ l₂ := (List.nodup_cons.mp hn).1
    have hpa : p a = true := (hp a).mpr (List.mem_cons_self a l₁)
    simp only [List.filter_cons, hpa, if_true]
    have hstep : l₂.filter p = l₂.filter (fun x => decide (x ∈ l₁)) := by
      apply List.filter_congr
      intro x hx
      have hxa : x ≠ a := fun he => ha (he ▸ hx)
      rw [Bool.eq_iff_iff, hp x]
      simp [List.mem_cons, hxa]
    rw [hstep, ih (fun x => decide (x ∈ l₁)) (fun x => by simp) (List.nodup_cons.mp hn).2]

theorem eval_enumeratedPopCount [DecidableEq α] (vs : List α) (n : ℕ) (ρ : α → Bool) :
    eval ρ (EnumeratedPopCount vs n) = true ↔ vs.countP ρ = n := by
  unfold EnumeratedPopCount
  split
  case isTrue h0 =>
    subst h0
    rw [eval, Bool.not_eq_true', eval_OrL, any_map_eval, List.any_eq_false]
    simp [eval, List.countP_eq_zero]
  case isFalse h0 =>
    rw [eval_OrL, any_map_eval, List.any_eq_true]
    have hcombo : ∀ combo : List (ℕ × α),
        (eval ρ (AndL (vs.enum.map (fun iv =>
            if iv ∈ combo then Formula.var iv.2 else .not (.var iv.2)))) = true)
        ↔ ∀ iv ∈ vs.enum, (ρ iv.2 = true ↔ iv ∈ combo) := by
      intro combo
      rw [eval_AndL, all_map_eval, List.all_eq_true]
      refine forall₂_congr ?_
      intro iv _
      by_cases h : iv ∈ combo <;> simp [h, eval]
    constructor
    · rintro ⟨combo, hmem, hsat⟩
      obtain ⟨hsub, hlen⟩ := List.mem_sublistsLen.mp hmem
      have hall := (hcombo combo).mp hsat
      calc vs.countP ρ = vs.enum.countP (fun iv => ρ iv.2) := (countP_enum ρ vs).symm
        _ = vs.enum.countP (fun iv => decide (iv ∈ combo)) := by
              apply List.countP_congr
              intro iv hiv
              simp [hall iv hiv]
        _ = (vs.enum.filter (fun iv => decide (iv ∈ combo))).length := by
              rw [List.countP_eq_length_filter]
        _ = combo.length := congrArg List.length
              (filter_mem_of_sublist _ (fun x => by simp) hsub (enum_nodup vs))
        _ = n := hlen
    · intro hc
      refine ⟨vs.enum.filter (fun iv => ρ iv.2), ?_, ?_⟩
      · apply List.mem_sublistsLen.mpr
        refine ⟨List.filter_sublist _, ?_⟩
        rw [← List.countP_eq_length_filter, countP_enum, hc]
      · apply (hcombo _).mpr
        intro iv hiv
        simp [List.mem_filter, hiv]

theorem countP_take_drop (p : α → Bool) (l : List α) (i : ℕ) (h : i < l.length) :
    l.countP p
      = (l.take i).countP p + (if p l[i] then 1 else 0) + (l.drop (i + 1)).countP p := by
  conv_lhs => rw [← List.take_append_drop i l]
  rw [List.countP_append, ← List.getElem_cons_drop l i h, List.countP_cons]
  by_cases hp : p l[i]
  · simp [hp]
    omega
  · simp [hp]

theorem eval_popCountAux [DecidableEq α] :
    ∀ (n : ℕ) (vs : List α) (ρ : α → Bool),
      eval ρ (PopCount vs n) = true ↔ vs.countP ρ = n := by
  intro n
  induction n using Nat.strong_induction_on with
  | _ n IH =>
    intro vs ρ
    unfold PopCount
    split
    case isTrue h0 =>
      subst h0
      rw [eval, Bool.not_eq_true', eval_OrL, any_map_eval, List.any_eq_false]
      simp [eval, List.countP_eq_zero]
    case isFalse h0 =>
      split
      case isTrue h123 => exact eval_enumeratedPopCount vs n ρ
      case isFalse h123 =>
        have h4 : 4 ≤ n := by omega
        rw [eval_AndL, List.all_cons, Bool.and_eq_true, eval_OrL, any_map_eval,
          all_map_eval, List.all_eq_true, List.any_eq_true]
        constructor
        · rintro ⟨hor, hall⟩
          obtain ⟨v, hv, hρv⟩ := hor
          rw [eval] at hρv
          obtain ⟨i, hi, hvi⟩ := List.mem_iff_getElem.mp hv
          rw [List.forall_mem_enum] at hall
          have h1 := hall i hi
          rw [eval_OrL, any_map_eval, List.any_eq_true] at h1
          simp only [List.mem_attach, true_and, Subtype.exists, List.mem_range] at h1
          obtain ⟨a, ha, hsat⟩ := h1
          rw [eval_AndL] at hsat
          simp only [List.all_cons, List.all_nil, Bool.and_eq_true, eval,
            Bool.or_eq_true, Bool.not_eq_true'] at hsat
          rw [hvi, hρv] at hsat
          obtain ⟨h1', h2'⟩ := hsat
          rcases h1' with h1' | h1'
          · cases h1'
          rcases h2' with h2' | h2'
          · cases h2'
          have ht := (IH a ha (vs.take i) ρ).mp h1'
          have hd := (IH (n - 1 - a) (by omega) (vs.drop (i + 1)) ρ).mp h2'
          have hdec := countP_take_drop ρ vs i hi
          rw [hvi, hρv] at hdec
          simp at hdec
          omega
        · intro hc
          constructor
          · have hpos : 0 < vs.countP ρ := by omega
            obtain ⟨v, hv, hρv⟩ := List.countP_pos_iff.mp hpos
            exact ⟨v, hv, by rw [eval]; exact hρv⟩
          · rw [List.forall_mem_enum]
            intro i hi
            rw [eval_OrL, any_map_eval, List.any_eq_true]
            simp only [List.mem_attach, true_and, Subtype.exists, List.mem_range]
            by_cases hρv : ρ vs[i] = true
            · have hdec := countP_take_drop ρ vs i hi
              rw [hρv] at hdec
              simp at hdec
              refine ⟨(vs.take i).countP ρ, by omega, ?_⟩
              rw [eval_AndL]
              simp only [List.all_cons, List.all_nil, Bool.and_eq_true, eval,
                Bool.or_eq_true, Bool.not_eq_true', and_true]
              refine ⟨Or.inr ?_, Or.inr ?_⟩
              · exact (IH _ (by omega) (vs.take i) ρ).mpr rfl
              · exact (IH _ (by omega) (vs.drop (i + 1)) ρ).mpr (by omega)
            · refine ⟨0, by omega, ?_⟩
              rw [eval_AndL]
              simp only [List.all_cons, List.all_nil, Bool.and_eq_true, eval,
                Bool.or_eq_true, Bool.not_eq_true', and_true]
              simp only [Bool.not_eq_true] at hρv
              exact ⟨Or.inl hρv, Or.inl hρv⟩

/-! ## Random graph sampler: `Graphical`, `ArrayDecrement`, `BlitzsteinDiaconis`

Transcriptions of `swiss.py` lines 442-500.  Python's in-place
`d.sort(reverse=True)` is modelled by a descending insertion sort (the
code only consumes the sorted values, so any correct descending sort is
equivalent).  The two `random.choices` calls are abstracted into a `pick`
oracle receiving exactly the candidate list and the weight list the code
builds; `pick = none` models the exception `random.choices` raises on an
empty population.  The probability bookkeeping (`equivalence_class_size`,
`likelihood`) influences neither candidate sets nor control flow and is
not modelled.  Errors carry the edge set built so far, to record whether
a failure happened before or after edges were constructed. -/

def insertDesc (x : ℤ) : List ℤ → List ℤ
  | [] => [x]
  | y :: ys => if y ≤ x then x :: y :: ys else y :: insertDesc x ys

def sortDesc (l : List ℤ) : List ℤ := l.foldr insertDesc []

def Graphical (d : List ℤ) : Bool :=
  let n := d.length
  if d.any (fun di => decide (di < 0)) then false
  else
    let ds := sortDesc (d.filter (fun di => decide (0 < di)))
    (List.range' 1 n).all (fun k =>
      decide ((ds.take k).sum ≤
        (k : ℤ) * (k - 1) + ((ds.drop k).map (fun di => min (k : ℤ) di)).sum))

def ArrayDecrement (indices : List ℕ) (array : List ℤ) : List ℤ :=
  indices.foldl (fun a i => a.set i (a.getD i 0 - 1)) array

/-- `GraphicalSpec` follows the specification's words (a second definition,
for comparison with the code's `Graphical`): the Erdős–Gallai criterion —
even degree sum, no negative degrees, and for every `k` in `1..n` the sum
of the `k` largest values is at most `k(k-1)` plus the sum of
`min(value, k)` over the remaining values. -/
def GraphicalSpec (d : List ℤ) : Prop :=
  d.sum % 2 = 0 ∧ (∀ di ∈ d, 0 ≤ di) ∧
  ∀ k ∈ List.range' 1 d.length,
    ((sortDesc d).take k).sum ≤
      (k : ℤ) * (k - 1) + (((sortDesc d).drop k).map (fun di => min (k : ℤ) di)).sum

instance (d : List ℤ) : Decidable (GraphicalSpec d) := by
  unfold GraphicalSpec
  infer_instance

inductive BDError where
  | notGraphical
  | emptyCandidates
  | assertFailed
  | outOfFuel
deriving DecidableEq, Repr

def tupleSorted (i j : ℕ) : ℕ × ℕ := (min i j, max i j)

def BDCandidates (i : ℕ) (d : List ℤ) (e : List (ℕ × ℕ)) : List ℕ :=
  (List.range d.length).filter (fun j =>
    j != i && !(e.contains (tupleSorted i j)) && Graphical (ArrayDecrement [i, j] d))

def BDInner (pick : List ℕ → List ℤ → Option ℕ) (i : ℕ) :
    ℕ → List ℤ → List (ℕ × ℕ) → Except (BDError × List (ℕ × ℕ)) (List ℤ × List (ℕ × ℕ))
  | 0, _, e => .error (.outOfFuel, e)
  | fuel + 1, d, e =>
    if 0 < d.getD i 0 then
      let cands := BDCandidates i d e
      match pick cands (cands.map (fun j => d.getD j 0)) with
      | none => .error (.emptyCandidates, e)
      | some sel =>
        let e' := e ++ [tupleSorted i sel]
        let d' := ArrayDecrement [i, sel] d
        if Graphical d' then BDInner pick i fuel d' e' else .error (.assertFailed, e')
    else .ok (d, e)

def BDOuter (pick : List ℕ → List ℤ → Option ℕ) :
    ℕ → List ℤ → List (ℕ × ℕ) → Except (BDError × List (ℕ × ℕ)) (List (ℕ × ℕ))
  | 0, _, e => .error (.outOfFuel, e)
  | fuel + 1, d, e =>
    if d.any (fun di => decide (0 < di)) then
      match (d.filter (fun di => decide (0 < di))).min? with
      | none => .error (.outOfFuel, e)
      | some m =>
        match BDInner pick (d.indexOf m) (fuel + 1) d e with
        | .ok (d', e') => BDOuter pick fuel d' e'
        | .error err => .error err
    else .ok e

def BlitzsteinDiaconis (pick : List ℕ → List ℤ → Option ℕ) (fuel : ℕ) (d : List ℤ) :
    Except (BDError × List (ℕ × ℕ)) (List (ℕ × ℕ)) :=
  if Graphical d then BDOuter pick fuel d [] else .error (.notGraphical, [])

/-- `pickFirst` is a concrete deterministic instantiation of the
`random.choices` oracle used for concrete runs. -/
def pickFirst (cands : List ℕ) (_weights : List ℤ) : Option ℕ := cands.head?

/-! ## Heap model of the python list mutations

Python lists are heap objects; `a = array[:]` allocates a fresh list while
`a[i] -= 1` mutates in place.  To state the frame/aliasing facts of the
code (claim about `ArrayDecrement`, `BlitzsteinDiaconis` and
`ImportanceSampledBlitzsteinDiaconis`) the heap is modelled explicitly as
a `List (List ℤ)` of cells, references being cell indices; allocation
appends a cell at the end.  The `…H` functions are the same algorithms as
above but reading and writing degree sequences through the heap. -/

abbrev Heap := List (List ℤ)

/-- One `a[i] -= 1` step performed on the heap cell `fresh`. -/
def bumpAt (fresh : ℕ) (hh : Heap) (i : ℕ) : Heap :=
  hh.set fresh ((hh.getD fresh []).set i ((hh.getD fresh []).getD i 0 - 1))

/-- Heap model of `ArrayDecrement`: `a = array[:]` allocates a fresh cell
holding a copy of `array`, then each index decrement writes that cell;
returns the reference to the fresh cell together with the final heap. -/
def ArrayDecrementH (indices : List ℕ) (r : ℕ) (h : Heap) : ℕ × Heap :=
  (h.length, indices.foldl (bumpAt h.length) (h ++ [h.getD r []]))

def BDInnerH (pick : List ℕ → List ℤ → Option ℕ) (i : ℕ) :
    ℕ → ℕ → Heap → List (ℕ × ℕ) →
      (Except (BDError × List (ℕ × ℕ)) (ℕ × List (ℕ × ℕ))) × Heap
  | 0, _, h, e => (.error (.outOfFuel, e), h)
  | fuel + 1, r, h, e =>
    let d := h.getD r []
    if 0 < d.getD i 0 then
      let cands := BDCandidates i d e
      match pick cands (cands.map (fun j => d.getD j 0)) with
      | none => (.error (.emptyCandidates, e), h)
      | some sel =>
        let rh := ArrayDecrementH [i, sel] r h
        if Graphical (rh.2.getD rh.1 []) then
          BDInnerH pick i fuel rh.1 rh.2 (e ++ [tupleSorted i sel])
        else (.error (.assertFailed, e ++ [tupleSorted i sel]), rh.2)
    else (.ok (r, e), h)

def BDOuterH (pick : List ℕ → List ℤ → Option ℕ) :
    ℕ → ℕ → Heap → List (ℕ × ℕ) →
      (Except (BDError × List (ℕ × ℕ)) (List (ℕ × ℕ))) × Heap
  | 0, _, h, e => (.error (.outOfFuel, e), h)
  | fuel + 1, r, h, e =>
    let d := h.getD r []
    if d.any (fun di => decide (0 < di)) then
      match (d.filter (fun di => decide (0 < di))).min? with
      | none => (.error (.outOfFuel, e), h)
      | some m =>
        match BDInnerH pick (d.indexOf m) (fuel + 1) r h e with
        | (.ok (r', e'), h') => BDOuterH pick fuel r' h' e'
        | (.error err, h') => (.error err, h')
    else (.ok e, h)

/-- Heap model of `BlitzsteinDiaconis`: the entry `d = d[:]` allocates a
fresh copy of the caller's degree sequence, and the construction loop only
ever touches that copy and the further fresh cells `ArrayDecrement`
allocates. -/
def BlitzsteinDiaconisH (pick : List ℕ → List ℤ → Option ℕ) (fuel : ℕ) (r : ℕ) (h : Heap) :
    (Except (BDError × List (ℕ × ℕ)) (List (ℕ × ℕ))) × Heap :=
  let fresh := h.length
  let h1 := h ++ [h.getD r []]
  if Graphical (h1.getD fresh []) then BDOuterH pick fuel fresh h1 []
  else (.error (.notGraphical, []), h1)

/-- Heap model of `ImportanceSampledBlitzsteinDiaconis`: `n` calls of
`BlitzsteinDiaconis` on the same reference `r`, threading the heap; the
importance weights and the final `random.choices` draw do not touch the
degree sequences and are omitted. -/
def ISBDH (pick : List ℕ → List ℤ → Option ℕ) (fuel : ℕ) :
    ℕ → ℕ → Heap → (Except (BDError × List (ℕ × ℕ)) (List (List (ℕ × ℕ)))) × Heap
  | 0, _, h => (.ok [], h)
  | n + 1, r, h =>
    match BlitzsteinDiaconisH pick fuel r h with
    | (.ok e, h') =>
      match ISBDH pick fuel n r h' with
      | (.ok es, h'') => (.ok (e :: es), h'')
      | (.error err, h'') => (.error err, h'')
    | (.error err, h') => (.error err, h')

/-- `h'` extends `h`: it has at least as many cells and agrees with `h` on
every cell of `h`. -/
def HeapExtends (h h' : Heap) : Prop :=
  h.length ≤ h'.length ∧ ∀ j, j < h.length → h'.getD j [] = h.getD j []

theorem HeapExtends.refl (h : Heap) : HeapExtends h h :=
  ⟨le_refl _, fun _ _ => rfl⟩

theorem HeapExtends.trans {h₁ h₂ h₃ : Heap} (a : HeapExtends h₁ h₂)
    (b : HeapExtends h₂ h₃) : HeapExtends h₁ h₃ :=
  ⟨le_trans a.1 b.1, fun j hj => (b.2 j (lt_of_lt_of_le hj a.1)).trans (a.2 j hj)⟩

theorem getD_set_ne {γ : Type} (l : List γ) (i j : ℕ) (a d : γ) (h : i ≠ j) :
    (l.set i a).getD j d = l.getD j d := by
  simp [List.getD_eq_getElem?_getD, List.getElem?_set_ne h]

theorem getD_set_self {γ : Type} (l : List γ) (i : ℕ) (a d : γ) (h : i < l.length) :
    (l.set i a).getD i d = a := by
  simp [List.getD_eq_getElem?_getD, List.getElem?_set_self h]

theorem getD_append_left {γ : Type} (l₁ l₂ : List γ) (j : ℕ) (d : γ) (h : j < l₁.length) :
    (l₁ ++ l₂).getD j d = l₁.getD j d := by
  simp [List.getD_eq_getElem?_getD, List.getElem?_append_left h]

theorem getD_append_self {γ : Type} (l₁ : List γ) (x d : γ) :
    (l₁ ++ [x]).getD l₁.length d = x := by
  simp [List.getD_eq_getElem?_getD, List.getElem?_append_right (le_refl l₁.length)]

theorem foldl_bumpAt_length (idx : List ℕ) (fresh : ℕ) (hh : Heap) :
    (idx.foldl (bumpAt fresh) hh).length = hh.length := by
  induction idx generalizing hh with
  | nil => rfl
  | cons i idx ih => rw [List.foldl_cons, ih]; simp [bumpAt]

theorem foldl_bumpAt_getD_ne (idx : List ℕ) (fresh j : ℕ) (hh : Heap) (hj : j ≠ fresh) :
    (idx.foldl (bumpAt fresh) hh).getD j [] = hh.getD j [] := by
  induction idx generalizing hh with
  | nil => rfl
  | cons i idx ih =>
    rw [List.foldl_cons, ih]
    exact getD_set_ne _ _ _ _ _ (fun he => hj he.symm)

theorem foldl_bumpAt_getD_self (idx : List ℕ) (fresh : ℕ) (hh : Heap)
    (hf : fresh < hh.length) :
    (idx.foldl (bumpAt fresh) hh).getD fresh [] = ArrayDecrement idx (hh.getD fresh []) := by
  induction idx generalizing hh with
  | nil => rfl
  | cons i idx ih =>
    rw [List.foldl_cons]
    unfold ArrayDecrement
    rw [List.foldl_cons]
    have hlen : fresh < (bumpAt fresh hh i).length := by simpa [bumpAt] using hf
    have := ih (bumpAt fresh hh i) hlen
    unfold ArrayDecrement at this
    rw [this]
    congr 1
    unfold bumpAt
    rw [getD_set_self _ _ _ _ hf]

theorem ArrayDecrementH_spec (idx : List ℕ) (r : ℕ) (h : Heap) :
    (ArrayDecrementH idx r h).1 = h.length
    ∧ (ArrayDecrementH idx r h).2.length = h.length + 1
    ∧ HeapExtends h (ArrayDecrementH idx r h).2
    ∧ (ArrayDecrementH idx r h).2.getD h.length [] = ArrayDecrement idx (h.getD r []) := by
  have hlen : (ArrayDecrementH idx r h).2.length = h.length + 1 := by
    simp [ArrayDecrementH, foldl_bumpAt_length]
  refine ⟨rfl, hlen, ⟨by omega, ?_⟩, ?_⟩
  · intro j hj
    show (idx.foldl (bumpAt h.length) (h ++ [h.getD r []])).getD j [] = h.getD j []
    rw [foldl_bumpAt_getD_ne idx h.length j _ (by omega)]
    exact getD_append_left h _ j [] hj
  · show (idx.foldl (bumpAt h.length) (h ++ [h.getD r []])).getD h.length []
      = ArrayDecrement idx (h.getD r [])
    rw [foldl_bumpAt_getD_self idx h.length _ (by simp)]
    rw [getD_append_self]

theorem BDInnerH_sim (pick : List ℕ → List ℤ → Option ℕ) (i : ℕ) :
    ∀ (fuel : ℕ) (r : ℕ) (h : Heap) (e : List (ℕ × ℕ)), r < h.length →
      HeapExtends h (BDInnerH pick i fuel r h e).2 ∧
      (∀ err, BDInner pick i fuel (h.getD r []) e = .error err →
        (BDInnerH pick i fuel r h e).1 = .error err) ∧
      (∀ d' e', BDInner pick i fuel (h.getD r []) e = .ok (d', e') →
        ∃ r', (BDInnerH pick i fuel r h e).1 = .ok (r', e')
          ∧ r' < (BDInnerH pick i fuel r h e).2.length
          ∧ (BDInnerH pick i fuel r h e).2.getD r' [] = d') := by
  intro fuel
  induction fuel with
  | zero =>
    intro r h e hr
    refine ⟨HeapExtends.refl h, ?_, ?_⟩
    · intro err herr
      cases herr
      rfl
    · intro d' e' hok
      cases hok
  | succ fuel ih =>
    intro r h e hr
    by_cases hpos : 0 < (h.getD r []).getD i 0
    · cases hp : pick (BDCandidates i (h.getD r []) e)
          ((BDCandidates i (h.getD r []) e).map (fun j => (h.getD r []).getD j 0)) with
      | none =>
        have hpure : BDInner pick i (fuel + 1) (h.getD r []) e
            = .error (.emptyCandidates, e) := by
          simp only [BDInner, hp]
          rw [if_pos hpos]
        have hheap : BDInnerH pick i (fuel + 1) r h e = (.error (.emptyCandidates, e), h) := by
          simp only [BDInnerH, hp]
          rw [if_pos hpos]
        refine ⟨by rw [hheap]; exact HeapExtends.refl h, ?_, ?_⟩
        · intro err herr
          rw [hpure] at herr
          cases herr
          rw [hheap]
        · intro d' e' hok
          rw [hpure] at hok
          cases hok
      | some sel =>
        obtain ⟨hfst, hlen2, hext, hcont⟩ := ArrayDecrementH_spec [i, sel] r h
        by_cases hg : Graphical (ArrayDecrement [i, sel] (h.getD r []))
        · have hpure : BDInner pick i (fuel + 1) (h.getD r []) e
              = BDInner pick i fuel (ArrayDecrement [i, sel] (h.getD r []))
                  (e ++ [tupleSorted i sel]) := by
            simp only [BDInner, hp]
            rw [if_pos hpos, if_pos hg]
          have hheap : BDInnerH pick i (fuel + 1) r h e
              = BDInnerH pick i fuel h.length
                  (ArrayDecrementH [i, sel] r h).2 (e ++ [tupleSorted i sel]) := by
            simp only [BDInnerH, hp]
            rw [if_pos hpos, hfst, hcont, if_pos hg]
          obtain ⟨ihext, iherr, ihok⟩ :=
            ih h.length (ArrayDecrementH [i, sel] r h).2
              (e ++ [tupleSorted i sel]) (by omega)
          rw [hcont] at iherr ihok
          refine ⟨?_, ?_, ?_⟩
          · rw [hheap]
            exact hext.trans ihext
          · intro err herr
            rw [hpure] at herr
            rw [hheap]
            exact iherr err herr
          · intro d' e' hok
            rw [hpure] at hok
            rw [hheap]
            exact ihok d' e' hok
        · have hpure : BDInner pick i (fuel + 1) (h.getD r []) e
              = .error (.assertFailed, e ++ [tupleSorted i sel]) := by
            simp only [BDInner, hp]
            rw [if_pos hpos, if_neg hg]
          have hheap : BDInnerH pick i (fuel + 1) r h e
              = (.error (.assertFailed, e ++ [tupleSorted i sel]),
                  (ArrayDecrementH [i, sel] r h).2) := by
            simp only [BDInnerH, hp]
            rw [if_pos hpos, hfst, hcont, if_neg hg]
          refine ⟨by rw [hheap]; exact hext, ?_, ?_⟩
          · intro err herr
            rw [hpure] at herr
            cases herr
            rw [hheap]
          · intro d' e' hok
            rw [hpure] at hok
            cases hok
    · have hpure : BDInner pick i (fuel + 1) (h.getD r []) e = .ok (h.getD r [], e) := by
        simp only [BDInner]
        rw [if_neg hpos]
      have hheap : BDInnerH pick i (fuel + 1) r h e = (.ok (r, e), h) := by
        simp only [BDInnerH]
        rw [if_neg hpos]
      refine ⟨by rw [hheap]; exact HeapExtends.refl h, ?_, ?_⟩
      · intro err herr
        rw [hpure] at herr
        cases herr
      · intro d' e' hok
        rw [hpure] at hok
        cases hok
        rw [hheap]
        exact ⟨r, rfl, hr, rfl⟩

theorem BDOuterH_sim (pick : List ℕ → List ℤ → Option ℕ) :
    ∀ (fuel : ℕ) (r : ℕ) (h : Heap) (e : List (ℕ × ℕ)), r < h.length →
      HeapExtends h (BDOuterH pick fuel r h e).2 ∧
      (∀ err, BDOuter pick fuel (h.getD r []) e = .error err →
        (BDOuterH pick fuel r h e).1 = .error err) ∧
      (∀ e', BDOuter pick fuel (h.getD r []) e = .ok e' →
        (BDOuterH pick fuel r h e).1 = .ok e') := by
  intro fuel
  induction fuel with
  | zero =>
    intro r h e hr
    refine ⟨HeapExtends.refl h, ?_, ?_⟩
    · intro err herr
      cases herr
      rfl
    · intro e' hok
      cases hok
  | succ fuel ih =>
    intro r h e hr
    by_cases hany : (h.getD r []).any (fun di => decide (0 < di))
    · cases hmin : ((h.getD r []).filter (fun di => decide (0 < di))).min? with
      | none =>
        have hpure : BDOuter pick (fuel + 1) (h.getD r []) e = .error (.outOfFuel, e) := by
          simp only [BDOuter, hmin]
          rw [if_pos hany]
        have hheap : BDOuterH pick (fuel + 1) r h e = (.error (.outOfFuel, e), h) := by
          simp only [BDOuterH, hmin]
          rw [if_pos hany]
        refine ⟨by rw [hheap]; exact HeapExtends.refl h, ?_, ?_⟩
        · intro err herr
          rw [hpure] at herr
          cases herr
          rw [hheap]
        · intro e' hok
          rw [hpure] at hok
          cases hok
      | some m =>
        obtain ⟨iext, ierr, iok⟩ :=
          BDInnerH_sim pick ((h.getD r []).indexOf m) (fuel + 1) r h e hr
        rcases hBDI : BDInnerH pick ((h.getD r []).indexOf m) (fuel + 1) r h e with ⟨res, h2⟩
        rw [hBDI] at iext ierr iok
        dsimp only at iext ierr iok
        cases hinner : BDInner pick ((h.getD r []).indexOf m) (fuel + 1) (h.getD r []) e with
        | error err =>
          have h1 := ierr err hinner
          subst h1
          have hpure : BDOuter pick (fuel + 1) (h.getD r []) e = .error err := by
            simp only [BDOuter, hmin, hinner]
            rw [if_pos hany]
          have hheap : BDOuterH pick (fuel + 1) r h e = (.error err, h2) := by
            simp only [BDOuterH, hmin, hBDI]
            rw [if_pos hany]
          refine ⟨by rw [hheap]; exact iext, ?_, ?_⟩
          · intro err' herr'
            rw [hpure] at herr'
            cases herr'
            rw [hheap]
          · intro e' hok
            rw [hpure] at hok
            cases hok
        | ok de =>
          obtain ⟨d', e'⟩ := de
          obtain ⟨r', hok1, hr'2, hcontent⟩ := iok d' e' hinner
          subst hok1
          have hpure : BDOuter pick (fuel + 1) (h.getD r []) e
              = BDOuter pick fuel d' e' := by
            simp only [BDOuter, hmin, hinner]
            rw [if_pos hany]
          have hheap : BDOuterH pick (fuel + 1) r h e
              = BDOuterH pick fuel r' h2 e' := by
            simp only [BDOuterH, hmin, hBDI]
            rw [if_pos hany]
          obtain ⟨ihext, iherr, ihok⟩ := ih r' h2 e' hr'2
          rw [hcontent] at iherr ihok
          refine ⟨?_, ?_, ?_⟩
          · rw [hheap]
            exact iext.trans ihext
          · intro err herr
            rw [hpure] at herr
            rw [hheap]
            exact iherr err herr
          · intro e'' hok
            rw [hpure] at hok
            rw [hheap]
            exact ihok e'' hok
    · have hpure : BDOuter pick (fuel + 1) (h.getD r []) e = .ok e := by
        simp only [BDOuter]
        rw [if_neg hany]
      have hheap : BDOuterH pick (fuel + 1) r h e = (.ok e, h) := by
        simp only [BDOuterH]
        rw [if_neg hany]
      refine ⟨by rw [hheap]; exact HeapExtends.refl h, ?_, ?_⟩
      · intro err herr
        rw [hpure] at herr
        cases herr
      · intro e' hok
        rw [hpure] at hok
        cases hok
        rw [hheap]

theorem BlitzsteinDiaconisH_sim (pick : List ℕ → List ℤ → Option ℕ) (fuel : ℕ)
    (r : ℕ) (h : Heap) :
    HeapExtends h (BlitzsteinDiaconisH pick fuel r h).2 ∧
    (∀ err, BlitzsteinDiaconis pick fuel (h.getD r []) = .error err →
      (BlitzsteinDiaconisH pick fuel r h).1 = .error err) ∧
    (∀ e, BlitzsteinDiaconis pick fuel (h.getD r []) = .ok e →
      (BlitzsteinDiaconisH pick fuel r h).1 = .ok e) := by
  have hcopy : (h ++ [h.getD r []]).getD h.length [] = h.getD r [] := getD_append_self h _ []
  have hext1 : HeapExtends h (h ++ [h.getD r []]) := by
    refine ⟨by simp, ?_⟩
    intro j hj
    exact getD_append_left h _ j [] hj
  by_cases hg : Graphical (h.getD r [])
  · have hpure : BlitzsteinDiaconis pick fuel (h.getD r [])
        = BDOuter pick fuel (h.getD r []) [] := by
      simp only [BlitzsteinDiaconis]
      rw [if_pos hg]
    have hheap : BlitzsteinDiaconisH pick fuel r h
        = BDOuterH pick fuel h.length (h ++ [h.getD r []]) [] := by
      simp only [BlitzsteinDiaconisH]
      rw [hcopy, if_pos hg]
    obtain ⟨oext, oerr, ook⟩ :=
      BDOuterH_sim pick fuel h.length (h ++ [h.getD r []]) [] (by simp)
    rw [hcopy] at oerr ook
    refine ⟨?_, ?_, ?_⟩
    · rw [hheap]
      exact hext1.trans oext
    · intro err herr
      rw [hpure] at herr
      rw [hheap]
      exact oerr err herr
    · intro e hok
      rw [hpure] at hok
      rw [hheap]
      exact ook e hok
  · have hpure : BlitzsteinDiaconis pick fuel (h.getD r [])
        = .error (.notGraphical, []) := by
      simp only [BlitzsteinDiaconis]
      rw [if_neg hg]
    have hheap : BlitzsteinDiaconisH pick fuel r h
        = (.error (.notGraphical, []), h ++ [h.getD r []]) := by
      simp only [BlitzsteinDiaconisH]
      rw [hcopy, if_neg hg]
    refine ⟨by rw [hheap]; exact hext1, ?_, ?_⟩
    · intro err herr
      rw [hpure] at herr
      cases herr
      rw [hheap]
    · intro e hok
      rw [hpure] at hok
      cases hok

theorem ISBDH_sim (pick : List ℕ → List ℤ → Option ℕ) (fuel : ℕ) :
    ∀ (n : ℕ) (r : ℕ) (h : Heap), r < h.length →
      HeapExtends h (ISBDH pick fuel n r h).2 ∧
      (∀ es, (ISBDH pick fuel n r h).1 = .ok es →
        es.length = n ∧ ∀ x ∈ es, BlitzsteinDiaconis pick fuel (h.getD r []) = .ok x) := by
  intro n
  induction n with
  | zero =>
    intro r h hr
    refine ⟨HeapExtends.refl h, ?_⟩
    intro es hok
    cases hok
    exact ⟨rfl, by intro x hx; cases hx⟩
  | succ n ih =>
    intro r h hr
    obtain ⟨bext, berr, bok⟩ := BlitzsteinDiaconisH_sim pick fuel r h
    rcases hBDH : BlitzsteinDiaconisH pick fuel r h with ⟨res, h'⟩
    rw [hBDH] at bext berr bok
    dsimp only at bext berr bok
    cases res with
    | error err =>
      have hheap : ISBDH pick fuel (n + 1) r h = (.error err, h') := by
        simp only [ISBDH, hBDH]
      refine ⟨by rw [hheap]; exact bext, ?_⟩
      intro es hok
      rw [hheap] at hok
      cases hok
    | ok e =>
      have hr2 : r < h'.length := lt_of_lt_of_le hr bext.1
      have hcell : h'.getD r [] = h.getD r [] := bext.2 r hr
      obtain ⟨iext, iok⟩ := ih r h' hr2
      rcases hISB : ISBDH pick fuel n r h' with ⟨res2, h''⟩
      rw [hISB] at iext iok
      dsimp only at iext iok
      have hfirstpure : BlitzsteinDiaconis pick fuel (h.getD r []) = .ok e := by
        rcases hcall : BlitzsteinDiaconis pick fuel (h.getD r []) with err | e₀
        · have := berr err hcall
          cases this
        · have := bok e₀ hcall
          cases this
          rfl
      cases res2 with
      | error err =>
        have hheap : ISBDH pick fuel (n + 1) r h = (.error err, h'') := by
          simp only [ISBDH, hBDH, hISB]
        refine ⟨by rw [hheap]; exact bext.trans iext, ?_⟩
        intro es hok
        rw [hheap] at hok
        cases hok
      | ok es' =>
        have hheap : ISBDH pick fuel (n + 1) r h = (.ok (e :: es'), h'') := by
          simp only [ISBDH, hBDH, hISB]
        refine ⟨by rw [hheap]; exact bext.trans iext, ?_⟩
        intro es hok
        rw [hheap] at hok
        cases hok
        obtain ⟨hlen, hall⟩ := iok es' rfl
        rw [hcell] at hall
        refine ⟨by simp [hlen], ?_⟩
        intro x hx
        rcases List.mem_cons.mp hx with hx | hx
        · subst hx
          exact hfirstpure
        · exact hall x hx

/-! ## The exact optimizer: the binary-search loop of `Pairer.Search`

Transcription of `swiss.py` lines 264-298 as a state machine.  A state
records the lower bound `minimum`, the last recorded model's metric value
`loss` (`none` before the first model), the multiset of committed
`metric ≥ b` assertions (`lbs`, one appended at each UNSAT raise), the
`metric ≤ u` assertions currently on the solver stack (`ubs`; the last
entry is the active "putative" frame, the earlier ones are putative frames
kept committed by SAT answers), and the loop status.  The base formula is
abstracted by the set `S` of metric values achievable by models of the
no-repeat and requested-count constraints; a solver answer SAT with value
`x` is sound iff `x ∈ S` and `x` satisfies every recorded bound (`Meets`),
and UNSAT is sound iff no such value exists.  The `timeout` event is z3
returning `unknown` when the deadline budget expires; with no model yet it
makes the python code throw on `metric <= None` (status `crashed`). -/

inductive Status where
  | searching
  | optimal
  | timedOut
  | infeasible
  | crashed
deriving DecidableEq, Repr

structure SState where
  minimum : ℕ
  loss : Option ℕ
  lbs : List ℕ
  ubs : List ℕ
  status : Status
deriving DecidableEq, Repr

def Meets (S : Set ℕ) (lbs ubs : List ℕ) (x : ℕ) : Prop :=
  x ∈ S ∧ (∀ b ∈ lbs, b ≤ x) ∧ (∀ u ∈ ubs, x ≤ u)

inductive Event where
  | sat : ℕ → Event
  | unsat : Event
  | timeout : Event
deriving DecidableEq

def initState : SState := ⟨0, none, [], [], .searching⟩

inductive SearchStep (S : Set ℕ) : Event → SState → SState → Prop where
  | satOptimal (s : SState) (x : ℕ) :
      s.status = .searching → Meets S s.lbs s.ubs x → x = s.minimum →
      SearchStep S (.sat x) s { s with loss := some x, status := .optimal }
  | satContinue (s : SState) (x : ℕ) :
      s.status = .searching → Meets S s.lbs s.ubs x → x ≠ s.minimum →
      SearchStep S (.sat x) s
        { s with loss := some x, ubs := s.ubs ++ [(x + s.minimum) / 2] }
  | unsatNoModel (s : SState) :
      s.status = .searching → s.loss = none → (∀ x, ¬ Meets S s.lbs s.ubs x) →
      SearchStep S .unsat s { s with status := .infeasible }
  | unsatRaise (s : SState) (l : ℕ) :
      s.status = .searching → s.loss = some l → (∀ x, ¬ Meets S s.lbs s.ubs x) →
      SearchStep S .unsat s
        { s with minimum := (l + s.minimum) / 2 + 1,
                 lbs := s.lbs ++ [(l + s.minimum) / 2 + 1],
                 ubs := s.ubs.dropLast ++ [(l + ((l + s.minimum) / 2 + 1)) / 2] }
  | timeoutModel (s : SState) (l : ℕ) :
      s.status = .searching → s.loss = some l →
      SearchStep S .timeout s
        { s with ubs := s.ubs.dropLast ++ [l], status := .timedOut }
  | timeoutNoModel (s : SState) :
      s.status = .searching → s.loss = none →
      SearchStep S .timeout s { s with status := .crashed }

def Reachable (S : Set ℕ) (s : SState) : Prop :=
  Relation.ReflTransGen (fun a b => ∃ e, SearchStep S e a b) initState s

/-- The loop invariant: the current minimum is either the initial `0` or a
committed lower bound, and whenever a model with loss `l` is recorded,
`l` is an achievable metric value, at least every committed lower bound
(in particular `minimum`), at most every committed upper bound, and while
still searching the active putative frame is `metric ≤ (l + minimum)/2`. -/
def SearchInv (S : Set ℕ) (s : SState) : Prop :=
  (s.minimum = 0 ∨ s.minimum ∈ s.lbs) ∧
  ∀ l, s.loss = some l →
    l ∈ S ∧ s.minimum ≤ l ∧ (∀ b ∈ s.lbs, b ≤ l) ∧
    (s.status = .searching →
      s.ubs.getLast? = some ((l + s.minimum) / 2) ∧ ∀ u ∈ s.ubs.dropLast, l ≤ u)

theorem searchInv_init (S : Set ℕ) : SearchInv S initState := by
  constructor
  · exact Or.inl rfl
  · intro l hl
    cases hl

theorem unsat_min_lt_loss {S : Set ℕ} {s : SState} {l : ℕ} (hInv : SearchInv S s)
    (hst : s.status = .searching) (hl : s.loss = some l)
    (hnm : ∀ x, ¬ Meets S s.lbs s.ubs x) : s.minimum < l := by
  obtain ⟨hS, hmin, hlbs, hsearch⟩ := hInv.2 l hl
  rcases Nat.lt_or_ge s.minimum l with h | h
  · exact h
  exfalso
  have heq : s.minimum = l := le_antisymm hmin h
  obtain ⟨hlast, hdrop⟩ := hsearch hst
  apply hnm l
  refine ⟨hS, hlbs, ?_⟩
  intro u hu
  have hdecomp : s.ubs.dropLast ++ [(l + s.minimum) / 2] = s.ubs :=
    List.dropLast_append_getLast? _ hlast
  rw [← hdecomp] at hu
  rcases List.mem_append.mp hu with hu | hu
  · exact hdrop u hu
  · have : u = (l + s.minimum) / 2 := List.mem_singleton.mp hu
    subst this
    rw [heq]
    omega

theorem searchInv_step {S : Set ℕ} {e : Event} {s s' : SState}
    (hInv : SearchInv S s) (hstep : SearchStep S e s s') : SearchInv S s' := by
  cases hstep with
  | satOptimal s x hst hmeets hx =>
    refine ⟨hInv.1, ?_⟩
    intro l hl
    cases hl
    refine ⟨hmeets.1, le_of_eq hx.symm, hmeets.2.1, ?_⟩
    intro hco
    cases hco
  | satContinue s x hst hmeets hx =>
    refine ⟨hInv.1, ?_⟩
    intro l hl
    cases hl
    have hminx : s.minimum ≤ x := by
      rcases hInv.1 with h0 | hmem
      · omega
      · exact hmeets.2.1 _ hmem
    refine ⟨hmeets.1, hminx, hmeets.2.1, ?_⟩
    intro _
    constructor
    · exact List.getLast?_concat _
    · intro u hu
      rw [List.dropLast_concat] at hu
      exact hmeets.2.2 u hu
  | unsatNoModel s hst hloss hnm =>
    refine ⟨hInv.1, ?_⟩
    intro l hl
    have hl2 : (none : Option ℕ) = some l := hloss.symm.trans hl
    cases hl2
  | unsatRaise s l hst hloss hnm =>
    have hlt : s.minimum < l := unsat_min_lt_loss hInv hst hloss hnm
    obtain ⟨hS, hmin, hlbs, -⟩ := hInv.2 l hloss
    constructor
    · exact Or.inr (List.mem_append_right _ (List.mem_singleton.mpr rfl))
    · intro l' hl'
      have hl2 : some l = some l' := hloss.symm.trans hl'
      injection hl2 with hl3
      subst hl3
      refine ⟨hS, by show (l + s.minimum) / 2 + 1 ≤ l; omega, ?_, ?_⟩
      · intro b hb
        rcases List.mem_append.mp hb with hb | hb
        · exact hlbs b hb
        · have : b = (l + s.minimum) / 2 + 1 := List.mem_singleton.mp hb
          omega
      · intro _
        constructor
        · exact List.getLast?_concat _
        · intro u hu
          rw [List.dropLast_concat] at hu
          obtain ⟨-, -, -, hsearch⟩ := hInv.2 l hloss
          obtain ⟨hlast, hdrop⟩ := hsearch hst
          exact hdrop u hu
  | timeoutModel s l hst hloss =>
    refine ⟨hInv.1, ?_⟩
    intro l' hl'
    have hl2 : some l = some l' := hloss.symm.trans hl'
    injection hl2 with hl3
    subst hl3
    obtain ⟨hS, hmin, hlbs, -⟩ := hInv.2 l hloss
    refine ⟨hS, hmin, hlbs, ?_⟩
    intro hco
    cases hco
  | timeoutNoModel s hst hloss =>
    refine ⟨hInv.1, ?_⟩
    intro l hl
    have hl2 : (none : Option ℕ) = some l := hloss.symm.trans hl
    cases hl2

theorem searchInv_reachable {S : Set ℕ} {s : SState} (h : Reachable S s) :
    SearchInv S s := by
  induction h with
  | refl => exact searchInv_init S
  | tail hab hbc ih =>
    obtain ⟨e, hstep⟩ := hbc
    exact searchInv_step ih hstep

/-! ## Slot variables, no-repeat constraints and model extraction

Transcriptions of `swiss.py` lines 89-96 (`MakeSlots`), 181-185
(`NoRepeatMatches`) and 419-423 (`ModelPlayers`).  A slot variable is
keyed by its ordered index pair `(n, m)` with `n < m`; an assignment
`ρ : ℕ × ℕ → Bool` models a z3 model restricted to the slot variables. -/

def MakeSlots (nPlayers : ℕ) : List (ℕ × ℕ) :=
  (List.range nPlayers).flatMap (fun n =>
    ((List.range nPlayers).filter (fun m => decide (n < m))).map (fun m => (n, m)))

def NoRepeatMatches (slots : List (ℕ × ℕ)) (prev : List (String × String))
    (rev : ℕ → String) : List (Formula (ℕ × ℕ)) :=
  (slots.filter (fun nm => prev.contains (rev nm.1, rev nm.2))).map
    (fun nm => .not (.var nm))

def ModelPlayers (slots : List (ℕ × ℕ)) (rev : ℕ → String) (ρ : ℕ × ℕ → Bool) :
    List (String × String) :=
  (slots.reverse.filter ρ).map (fun nm => (rev nm.2, rev nm.1))

/-! ## Bye selection (`Pairer._FetchFromSheet`, lines 376-388)

`random.choice(candidates)` is abstracted by a `pick` oracle; `none`
models the `IndexError` it raises on an empty candidate list.  The
returned pair is the adjusted `requested_matches` list and the byed
player's name (if any); `AppendBye` models `Pairer.Search` appending the
`(byed_name, BYE)` pairing to the model's pairings (lines 306-309). -/

def BYE : String := "BYE"

def Odd (n : ℕ) : Bool := n % 2 == 1

def Even (n : ℕ) : Bool := n % 2 == 0

def Lcm (a b : ℕ) : ℕ := a * b / Nat.gcd a b

def ByeCandidates (names : List String) (reqs : List ℕ)
    (prev : List (String × String)) : List (ℕ × String) :=
  ((names.zip reqs).enum.filter
    (fun x => x.2.2 == 3 && !(prev.contains (x.2.1, BYE)))).map (fun x => (x.1, x.2.1))

def FetchByeAdjust (pick : List (ℕ × String) → Option (ℕ × String))
    (names : List String) (reqs : List ℕ) (prev : List (String × String)) :
    Option (List ℕ × Option String) :=
  if Odd reqs.sum then
    match pick (ByeCandidates names reqs prev) with
    | none => none
    | some inm => some (reqs.set inm.1 (reqs.getD inm.1 0 - 1), some inm.2)
  else some (reqs, none)

def AppendBye (pairings : List (String × String)) (byedName : Option String) :
    List (String × String) :=
  match byedName with
  | some nm => pairings ++ [(nm, BYE)]
  | none => pairings

/-! ## The mismatch metric (`MismatchSum`, lines 188-203)

The per-pair term carries the code's `assert`: `MismatchTerm` is `none`
exactly when `(diff.numerator * lcm**2) % diff.denominator == 0` fails.
`ScoreLcm` models `_FetchFromSheet`'s fold of `Lcm` over the set of score
denominators (lines 352-354). -/

def ScoreLcm (scores : List ℚ) : ℕ :=
  ((scores.map (fun s => s.den)).dedup).foldl Lcm 1

def MismatchTerm (scores : List ℚ) (lcm : ℕ) (ρ : ℕ × ℕ → Bool) (nm : ℕ × ℕ) : Option ℤ :=
  let diff := (scores.getD nm.2 0 - scores.getD nm.1 0) ^ 2
  if (diff.num * (lcm : ℤ) ^ 2) % (diff.den : ℤ) = 0 then
    some (if ρ nm then diff.num * (lcm : ℤ) ^ 2 / (diff.den : ℤ) else 0)
  else none

def MismatchSum (slots : List (ℕ × ℕ)) (scores : List ℚ) (lcm : ℕ)
    (ρ : ℕ × ℕ → Bool) : Option ℤ :=
  ((slots.filter (fun nm => decide (nm.1 < nm.2))).mapM (MismatchTerm scores lcm ρ)).map
    (fun ts => ts.sum)

/-! ## TSP reduction heuristic

The TSP module of this repository is not under `src/`; the definitions
below are modelled from the specification alone (§3, §4.3). -/

inductive Role where
  | single
  | double
  | hub
deriving DecidableEq, Repr

/-- Modelled from the spec: the TSP module is missing from `src/`.  §3: a
player needing `k` matches is represented by `⌊k/2⌋` DOUBLE nodes, and if
`k` is odd, one extra SINGLE node plus one HUB node. -/
def PlayerNodes (p k : ℕ) : List (ℕ × Role) :=
  List.replicate (k / 2) (p, Role.double) ++
    (if k % 2 = 1 then [(p, Role.single), (p, Role.hub)] else [])

/-- Modelled from the spec: the TSP module is missing from `src/`.  The
node set of an instance: every player expanded per `PlayerNodes`. -/
def ExpandNodes (reqs : List ℕ) : List (ℕ × Role) :=
  reqs.enum.flatMap (fun x => PlayerNodes x.1 x.2)

/-- Modelled from the spec: the TSP module is missing from `src/`.  §4.3:
walk consecutive tour edges (the tour being a Hamiltonian cycle given as
an ordered node sequence) and keep an edge as a real pairing only if it
connects two different underlying players and neither node is a HUB. -/
def RealPairings (tour : List (ℕ × Role)) : List ((ℕ × Role) × (ℕ × Role)) :=
  (tour.zip (tour.rotate 1)).filter (fun e =>
    e.1.1 != e.2.1 && !(e.1.2 == Role.hub) && !(e.2.2 == Role.hub))

/-! ## Verified properties -/

/-- C2: for every list of slot variables `vs` and every requested count
`k`, the formula `PopCount vs k` is satisfied exactly by the assignments
under which exactly `k` of the variables in `vs` are true; for
`k ∈ {1, 2, 3}` the encoding is the explicit enumeration
`EnumeratedPopCount` of all satisfying combinations, and for `k ≥ 4` the
recursive divide-and-conquer construction applies (by definition of
`PopCount`). -/
theorem popCount_exactly_k (vs : List ℕ) (k : ℕ) (ρ : ℕ → Bool) :
    (eval ρ (PopCount vs k) = true ↔ vs.countP ρ = k)
    ∧ PopCount vs 1 = EnumeratedPopCount vs 1
    ∧ PopCount vs 2 = EnumeratedPopCount vs 2
    ∧ PopCount vs 3 = EnumeratedPopCount vs 3 := by
  refine ⟨eval_popCountAux k vs ρ, ?_, ?_, ?_⟩ <;> simp [PopCount]

/-- C3: `Graphical` checks only the Erdős–Gallai inequalities and omits
the parity condition: on the odd-sum sequence `[3,3,3,3,3]` it returns
`true`, although the Erdős–Gallai criterion (`GraphicalSpec`, which
includes the even-sum condition) rejects it, contradicting the claim that
`Graphical [3,3,3,3,3]` is false; on `[3,3,3,3]` it returns `true` as
claimed. -/
theorem graphical_accepts_odd_sum :
    Graphical [3, 3, 3, 3] = true
    ∧ Graphical [3, 3, 3, 3, 3] = true
    ∧ ¬ GraphicalSpec [3, 3, 3, 3, 3]
    ∧ ([3, 3, 3, 3, 3] : List ℤ).sum % 2 = 1 := by
  exact ⟨by decide, by decide, by decide, by decide⟩

/-- C7: on the non-graphical odd-sum sequence `[3,3,3,3,3]` the upfront
`Graphical` validation passes (no `ValueError`), the construction then
builds four edges, and the run fails with an empty candidate set in the
middle of construction — refuting "raises an error exactly when `d` is
not graphical, and this check happens before any edge is constructed". -/
theorem blitzsteinDiaconis_fails_after_edges :
    BlitzsteinDiaconis pickFirst 20 [3, 3, 3, 3, 3]
      = .error (.emptyCandidates, [(0, 1), (0, 2), (0, 3), (1, 4)])
    ∧ Graphical [3, 3, 3, 3, 3] = true
    ∧ ¬ GraphicalSpec [3, 3, 3, 3, 3] := by
  exact ⟨by rfl, by decide, by decide⟩

/-- C1: from any reachable state of the binary-search loop, one step keeps
the lower bound `minimum` non-decreasing; the recorded loss never
increases across steps; a SAT answer with achieved loss `x` exits with the
OPTIMAL outcome exactly when `x` equals the current `minimum` (and any
OPTIMAL state records loss equal to its minimum); and an UNSAT answer with
recorded loss `l` updates `minimum` to `(l + minimum)/2 + 1`, strictly
greater than the previous minimum and at most `l`. -/
theorem search_loop_invariants (S : Set ℕ) (e : Event) (s s' : SState)
    (hreach : Reachable S s) (hstep : SearchStep S e s s') :
    s.minimum ≤ s'.minimum
    ∧ (∀ l l', s.loss = some l → s'.loss = some l' → l' ≤ l)
    ∧ (∀ x, e = .sat x → (s'.status = .optimal ↔ x = s.minimum))
    ∧ (s'.status = .optimal → s'.loss = some s'.minimum)
    ∧ (∀ l, e = .unsat → s.loss = some l →
        s'.minimum = (l + s.minimum) / 2 + 1
          ∧ s.minimum < s'.minimum ∧ s'.minimum ≤ l) := by
  have hInv := searchInv_reachable hreach
  have hsatle : ∀ x l, s.status = Status.searching → Meets S s.lbs s.ubs x →
      s.loss = some l → x ≤ l := by
    intro x l hst hmeets hl
    obtain ⟨-, hmin, -, hsearch⟩ := hInv.2 l hl
    obtain ⟨hlast, -⟩ := hsearch hst
    have hmem : (l + s.minimum) / 2 ∈ s.ubs := by
      have := List.dropLast_append_getLast? _ hlast
      rw [← this]
      exact List.mem_append_right _ (List.mem_singleton.mpr rfl)
    have := hmeets.2.2 _ hmem
    omega
  cases hstep with
  | satOptimal s x hst hmeets hx =>
    refine ⟨le_refl _, ?_, ?_, ?_, ?_⟩
    · intro l l' hl hl'
      have hl2 : some x = some l' := hl'
      injection hl2 with hl3
      exact hl3 ▸ hsatle x l hst hmeets hl
    · intro y hy
      injection hy with hy
      subst hy
      exact ⟨fun _ => hx, fun _ => rfl⟩
    · intro _
      show some x = some s.minimum
      rw [hx]
    · intro l he
      cases he
  | satContinue s x hst hmeets hx =>
    refine ⟨le_refl _, ?_, ?_, ?_, ?_⟩
    · intro l l' hl hl'
      have hl2 : some x = some l' := hl'
      injection hl2 with hl3
      exact hl3 ▸ hsatle x l hst hmeets hl
    · intro y hy
      injection hy with hy
      subst hy
      constructor
      · intro hopt
        have : s.status = Status.optimal := hopt
        rw [hst] at this
        cases this
      · intro heq
        exact absurd heq hx
    · intro hopt
      have : s.status = Status.optimal := hopt
      rw [hst] at this
      cases this
    · intro l he
      cases he
  | unsatNoModel s hst hloss hnm =>
    refine ⟨le_refl _, ?_, ?_, ?_, ?_⟩
    · intro l l' hl hl'
      have : (none : Option ℕ) = some l := hloss.symm.trans hl
      cases this
    · intro y hy
      cases hy
    · intro hopt
      have : Status.infeasible = Status.optimal := hopt
      cases this
    · intro l he hl
      have : (none : Option ℕ) = some l := hloss.symm.trans hl
      cases this
  | unsatRaise s l hst hloss hnm =>
    have hlt : s.minimum < l := unsat_min_lt_loss hInv hst hloss hnm
    refine ⟨?_, ?_, ?_, ?_, ?_⟩
    · show s.minimum ≤ (l + s.minimum) / 2 + 1
      omega
    · intro l0 l0' hl0 hl0'
      have h1 : some l = some l0 := hloss.symm.trans hl0
      have h2 : some l = some l0' := hloss.symm.trans hl0'
      injection h1 with h1
      injection h2 with h2
      omega
    · intro y hy
      cases hy
    · intro hopt
      have : s.status = Status.optimal := hopt
      rw [hst] at this
      cases this
    · intro l0 he hl0
      have h1 : some l = some l0 := hloss.symm.trans hl0
      injection h1 with h1
      subst h1
      refine ⟨rfl, ?_, ?_⟩
      · show s.minimum < (l + s.minimum) / 2 + 1
        omega
      · show (l + s.minimum) / 2 + 1 ≤ l
        omega
  | timeoutModel s l hst hloss =>
    refine ⟨le_refl _, ?_, ?_, ?_, ?_⟩
    · intro l0 l0' hl0 hl0'
      have h1 : some l = some l0 := hloss.symm.trans hl0
      have h2 : some l = some l0' := hloss.symm.trans hl0'
      injection h1 with h1
      injection h2 with h2
      omega
    · intro y hy
      cases hy
    · intro hopt
      have : Status.timedOut = Status.optimal := hopt
      cases this
    · intro l0 he
      cases he
  | timeoutNoModel s hst hloss =>
    refine ⟨le_refl _, ?_, ?_, ?_, ?_⟩
    · intro l l' hl hl'
      have : (none : Option ℕ) = some l := hloss.symm.trans hl
      cases this
    · intro y hy
      cases hy
    · intro hopt
      have : Status.crashed = Status.optimal := hopt
      cases this
    · intro l he hl
      have : (none : Option ℕ) = some l := hloss.symm.trans hl
      cases this

/-- C1 witness: a concrete two-step run.  With achievable metric set
`{2}`, the first check answers SAT with loss 2 (putative frame
`metric ≤ 1` pushed); the second check answers UNSAT, raising the minimum
from 0 to `(2 + 0)/2 + 1 = 2 ≤ 2`. -/
theorem search_loop_invariants_witness :
    (⟨0, some 2, [], [1], .searching⟩ : SState).minimum <
      (⟨2, some 2, [2], [2], .searching⟩ : SState).minimum := by
  have hstep1 : SearchStep {n : ℕ | n = 2} (.sat 2) initState
      ⟨0, some 2, [], [1], .searching⟩ :=
    SearchStep.satContinue initState 2 rfl
      ⟨rfl, ⟨by simp [initState], by simp [initState]⟩⟩ (by decide)
  have hreach : Reachable {n : ℕ | n = 2} ⟨0, some 2, [], [1], .searching⟩ :=
    Relation.ReflTransGen.single ⟨.sat 2, hstep1⟩
  have hnm : ∀ x, ¬ Meets {n : ℕ | n = 2} [] [1] x := by
    intro x hm
    obtain ⟨hx, -, hub⟩ := hm
    have h1 : x ≤ 1 := hub 1 (List.mem_singleton.mpr rfl)
    have h2 : x = 2 := hx
    omega
  have hstep2 : SearchStep {n : ℕ | n = 2} .unsat
      ⟨0, some 2, [], [1], .searching⟩ ⟨2, some 2, [2], [2], .searching⟩ :=
    SearchStep.unsatRaise ⟨0, some 2, [], [1], .searching⟩ 2 rfl rfl hnm
  exact ((search_loop_invariants {n : ℕ | n = 2} .unsat
    ⟨0, some 2, [], [1], .searching⟩ ⟨2, some 2, [2], [2], .searching⟩
    hreach hstep2).2.2.2.2 2 rfl rfl).2.1

/-- C6: if a satisfiability check answers UNSAT while no model has been
recorded yet, the search becomes INFEASIBLE: the resulting state is
terminal (no further step exists), it still records no model, and hence no
pairing list — not even a partial one — is produced. -/
theorem search_first_unsat_infeasible (S : Set ℕ) (s s' : SState)
    (hstep : SearchStep S .unsat s s') (hl : s.loss = none) :
    s'.status = .infeasible ∧ s'.loss = none ∧ ∀ e t, ¬ SearchStep S e s' t := by
  cases hstep with
  | unsatNoModel s hst hloss hnm =>
    refine ⟨rfl, hl, ?_⟩
    intro e t hstep'
    cases hstep' with
    | satOptimal _ _ h _ _ => cases h
    | satContinue _ _ h _ _ => cases h
    | unsatNoModel _ h _ _ => cases h
    | unsatRaise _ _ h _ _ => cases h
    | timeoutModel _ _ h _ => cases h
    | timeoutNoModel _ h _ => cases h
  | unsatRaise s l hst hloss hnm =>
    have : (none : Option ℕ) = some l := hl.symm.trans hloss
    cases this

/-- C6 witness: with an empty achievable set, the very first check is
UNSAT and the run ends INFEASIBLE and terminal. -/
theorem search_first_unsat_infeasible_witness :
    (⟨0, none, [], [], .infeasible⟩ : SState).status = .infeasible
    ∧ (⟨0, none, [], [], .infeasible⟩ : SState).loss = none
    ∧ ∀ e t, ¬ SearchStep (∅ : Set ℕ) e ⟨0, none, [], [], .infeasible⟩ t :=
  search_first_unsat_infeasible ∅ initState ⟨0, none, [], [], .infeasible⟩
    (SearchStep.unsatNoModel initState rfl rfl (fun _ hm => hm.1)) rfl

/-- C4 counterexample: `NoRepeatMatches` checks only the orientation
`(reverse_players[n], reverse_players[m])` of a slot.  With two players
`A = 0`, `B = 1` and a history containing only the reversed pair
`("B", "A")`, no constraint is emitted for slot `(0, 1)` (the constraint
list is empty), and the all-true assignment — which satisfies every
emitted constraint — outputs the pairing `("B", "A")`, which appears
verbatim in the history. -/
theorem noRepeatMatches_counterexample :
    Formula.not (Formula.var (0, 1)) ∉
      NoRepeatMatches (MakeSlots 2) [("B", "A")] (fun n => if n = 0 then "A" else "B")
    ∧ NoRepeatMatches (MakeSlots 2) [("B", "A")] (fun n => if n = 0 then "A" else "B") = []
    ∧ ModelPlayers (MakeSlots 2) (fun n => if n = 0 then "A" else "B") (fun _ => true)
        = [("B", "A")] := by
  exact ⟨by decide, by rfl, by rfl⟩

/-- C4 amended: `NoRepeatMatches` emits `Not slots[n][m]` exactly for
slots whose pair in the `(reverse_players[n], reverse_players[m])`
orientation appears in the history; provided the history set is symmetric
— as `_FetchFromSheet` in fact builds it, inserting both `zip(a, b)` and
`zip(b, a)` — every pair with either orientation in history is forced
false, and consequently no pairing output by a satisfying model appears,
in either order, in the history. -/
theorem noRepeatMatches_correct (slots : List (ℕ × ℕ)) (prev : List (String × String))
    (rev : ℕ → String) (ρ : ℕ × ℕ → Bool)
    (hsym : ∀ a b, (a, b) ∈ prev → (b, a) ∈ prev)
    (hsat : ∀ f ∈ NoRepeatMatches slots prev rev, eval ρ f = true) :
    ∀ p q, (p, q) ∈ ModelPlayers slots rev ρ → (p, q) ∉ prev ∧ (q, p) ∉ prev := by
  intro p q hpq
  simp only [ModelPlayers, List.mem_map, List.mem_filter, List.mem_reverse] at hpq
  obtain ⟨nm, ⟨hnm_slots, hρ⟩, heq⟩ := hpq
  have hp : rev nm.2 = p := congrArg Prod.fst heq
  have hq : rev nm.1 = q := congrArg Prod.snd heq
  have key : (rev nm.1, rev nm.2) ∉ prev := by
    intro hmem
    have hconstraint : Formula.not (Formula.var nm) ∈ NoRepeatMatches slots prev rev := by
      apply List.mem_map_of_mem
      apply List.mem_filter.mpr
      refine ⟨hnm_slots, ?_⟩
      rw [List.contains_eq_any_beq, List.any_eq_true]
      exact ⟨(rev nm.1, rev nm.2), hmem, by simp⟩
    have hev := hsat _ hconstraint
    rw [eval, eval, Bool.not_eq_true'] at hev
    rw [hρ] at hev
    cases hev
  subst hp
  subst hq
  constructor
  · intro hmem
    exact key (hsym _ _ hmem)
  · intro hmem
    exact key hmem

/-- C4 witness: two players `A`, `B`, a symmetric history `{(A,C),(C,A)}`
not mentioning the pair, the all-true model; the output pairing
`("B", "A")` appears in the history in neither order. -/
theorem noRepeatMatches_correct_witness :
    ("B", "A") ∉ ([("A", "C"), ("C", "A")] : List (String × String))
    ∧ ("A", "B") ∉ ([("A", "C"), ("C", "A")] : List (String × String)) := by
  refine noRepeatMatches_correct (MakeSlots 2) [("A", "C"), ("C", "A")]
    (fun n => if n = 0 then "A" else "B") (fun _ => true) ?_ ?_ "B" "A" (by decide)
  · intro a b hab
    simp only [List.mem_cons, List.mem_singleton] at hab ⊢
    rcases hab with h | h
    · right
      left
      rw [Prod.mk.injEq] at h ⊢
      exact ⟨h.2, h.1⟩
    · rcases h with h | h
      · left
        rw [Prod.mk.injEq] at h ⊢
        exact ⟨h.2, h.1⟩
      · cases h
  · intro f hf
    have hempty : NoRepeatMatches (MakeSlots 2) [("A", "C"), ("C", "A")]
        (fun n => if n = 0 then "A" else "B") = [] := by decide
    rw [hempty] at hf
    cases hf

theorem sum_set_add_getD :
    ∀ (l : List ℕ) (i v : ℕ), i < l.length →
      (l.set i v).sum + l.getD i 0 = l.sum + v := by
  intro l
  induction l with
  | nil =>
    intro i v h
    cases h
  | cons x xs ih =>
    intro i v h
    cases i with
    | zero =>
      simp [List.getD]
      omega
    | succ i =>
      have hlen : i < xs.length := by simpa using h
      have := ih i v hlen
      simp only [List.set, List.sum_cons, List.getD_cons_succ]
      omega

theorem byeCandidates_mem (names : List String) (reqs : List ℕ)
    (prev : List (String × String)) (i : ℕ) (nm : String) :
    (i, nm) ∈ ByeCandidates names reqs prev ↔
      names[i]? = some nm ∧ reqs[i]? = some 3 ∧ (nm, BYE) ∉ prev := by
  constructor
  · intro hmem
    simp only [ByeCandidates, List.mem_map, List.mem_filter] at hmem
    obtain ⟨x, ⟨hx_enum, hx_g⟩, hx_eq⟩ := hmem
    obtain ⟨j, a, b⟩ := x
    dsimp only at hx_eq hx_g
    rw [Prod.mk.injEq] at hx_eq
    obtain ⟨hj, ha⟩ := hx_eq
    rw [List.mk_mem_enum_iff_getElem?, List.getElem?_zip_eq_some] at hx_enum
    obtain ⟨hn, hr⟩ := hx_enum
    dsimp only at hn hr
    simp only [Bool.and_eq_true, beq_iff_eq, Bool.not_eq_true'] at hx_g
    obtain ⟨hb3, hcont⟩ := hx_g
    rw [hj, ha] at hn
    rw [hj, hb3] at hr
    rw [ha] at hcont
    refine ⟨hn, hr, ?_⟩
    intro hmem2
    have hc : prev.contains (nm, BYE) = true := by
      rw [List.contains_eq_any_beq, List.any_eq_true]
      exact ⟨(nm, BYE), hmem2, by simp⟩
    rw [hcont] at hc
    cases hc
  · rintro ⟨hn, hr, hnotin⟩
    simp only [ByeCandidates, List.mem_map, List.mem_filter]
    refine ⟨(i, (nm, 3)), ⟨?_, ?_⟩, rfl⟩
    · rw [List.mk_mem_enum_iff_getElem?, List.getElem?_zip_eq_some]
      exact ⟨hn, hr⟩
    · simp only [Bool.and_eq_true, beq_iff_eq, Bool.not_eq_true']
      refine ⟨by trivial, ?_⟩
      rw [Bool.eq_false_iff]
      intro hc
      rw [List.contains_eq_any_beq, List.any_eq_true] at hc
      obtain ⟨y, hy, hbeq⟩ := hc
      rw [beq_iff_eq] at hbeq
      exact hnotin (hbeq ▸ hy)

/-- C5: bye selection.  The candidate list handed to `random.choice` is
exactly the players whose requested match count is 3 and who have no
prior `(name, BYE)` pairing in history (`byeCandidates_mem`); when the
total requested count is odd and a candidate exists, exactly one such
player is chosen, their requirement drops from 3 to 2 (so the adjusted
total is even), and exactly one BYE pairing is appended to any BYE-free
pairing list; when the total is even no BYE pairing is produced; when the
total is odd and no candidate exists, the run fails (`none`, modelling the
`random.choice` exception). -/
theorem bye_selection (pick : List (ℕ × String) → Option (ℕ × String))
    (names : List String) (reqs : List ℕ) (prev : List (String × String))
    (hpick_mem : ∀ l x, pick l = some x → x ∈ l)
    (hpick_none : ∀ l, pick l = none → l = []) :
    (∀ i nm, (i, nm) ∈ ByeCandidates names reqs prev ↔
      names[i]? = some nm ∧ reqs[i]? = some 3 ∧ (nm, BYE) ∉ prev)
    ∧ (Odd reqs.sum = true → ByeCandidates names reqs prev ≠ [] →
        ∃ i nm, pick (ByeCandidates names reqs prev) = some (i, nm)
          ∧ (i, nm) ∈ ByeCandidates names reqs prev
          ∧ FetchByeAdjust pick names reqs prev = some (reqs.set i 2, some nm)
          ∧ (reqs.set i 2).sum = reqs.sum - 1
          ∧ Even ((reqs.set i 2).sum) = true
          ∧ ∀ ps : List (String × String),
              (∀ pr ∈ ps, pr.1 ≠ BYE ∧ pr.2 ≠ BYE) →
              (AppendBye ps (some nm)).countP
                (fun pr => pr.1 == BYE || pr.2 == BYE) = 1)
    ∧ (Odd reqs.sum = false →
        FetchByeAdjust pick names reqs prev = some (reqs, none)
          ∧ ∀ ps : List (String × String), AppendBye ps none = ps)
    ∧ (Odd reqs.sum = true → ByeCandidates names reqs prev = [] →
        FetchByeAdjust pick names reqs prev = none) := by
  refine ⟨byeCandidates_mem names reqs prev, ?_, ?_, ?_⟩
  · intro hodd hne
    obtain ⟨y, hp⟩ : ∃ y, pick (ByeCandidates names reqs prev) = some y := by
      cases hp : pick (ByeCandidates names reqs prev) with
      | none => exact absurd (hpick_none _ hp) hne
      | some y => exact ⟨y, rfl⟩
    obtain ⟨i, nm⟩ := y
    have hmem := hpick_mem _ _ hp
    obtain ⟨hn, hr, hnotin⟩ := (byeCandidates_mem names reqs prev i nm).mp hmem
    have hi : i < reqs.length := by
      by_contra hge
      rw [List.getElem?_eq_none (by omega)] at hr
      cases hr
    have hgetD : reqs.getD i 0 = 3 := by
      rw [List.getD_eq_getElem?_getD, hr]
      rfl
    have hsum3 : (reqs.set i 2).sum + 3 = reqs.sum + 2 := by
      have := sum_set_add_getD reqs i 2 hi
      rw [hgetD] at this
      exact this
    have hoddn : reqs.sum % 2 = 1 := by
      have h2 := hodd
      simp only [Odd, beq_iff_eq] at h2
      exact h2
    refine ⟨i, nm, hp, hmem, ?_, by omega, ?_, ?_⟩
    · simp only [FetchByeAdjust, hp]
      rw [if_pos hodd, hgetD]
    · simp only [Even, beq_iff_eq]
      omega
    · intro ps hps
      show ((ps ++ [(nm, BYE)]).countP (fun pr => pr.1 == BYE || pr.2 == BYE)) = 1
      rw [List.countP_append]
      have h0 : ps.countP (fun pr => pr.1 == BYE || pr.2 == BYE) = 0 := by
        rw [List.countP_eq_zero]
        intro pr hpr
        obtain ⟨h1, h2⟩ := hps pr hpr
        simp [h1, h2]
      rw [h0]
      simp
  · intro heven
    refine ⟨?_, fun ps => rfl⟩
    simp only [FetchByeAdjust]
    rw [if_neg (by rw [heven]; exact Bool.false_ne_true)]
  · intro hodd hempty
    simp only [FetchByeAdjust]
    rw [if_pos hodd, hempty]
    cases hp : pick [] with
    | none => rfl
    | some y => exact absurd (hpick_mem _ _ hp) (List.not_mem_nil _)

/-- C5 witness: three players all requesting 3 matches (odd total 9), no
history; the head-of-list choice byes player `"a"`, whose requirement
drops to 2, leaving an even total. -/
theorem bye_selection_witness :
    FetchByeAdjust List.head? ["a", "b", "c"] [3, 3, 3] [] = some ([2, 3, 3], some "a")
    ∧ Even (([2, 3, 3] : List ℕ).sum) = true := by
  have h := bye_selection List.head? ["a", "b", "c"] [3, 3, 3] []
    (fun l x hx => by
      cases l with
      | nil => cases hx
      | cons a as =>
        have hx2 : some a = some x := hx
        injection hx2 with hx3
        exact hx3 ▸ List.mem_cons_self a as)
    (fun l hl => by
      cases l with
      | nil => rfl
      | cons a as =>
        have hl2 : some a = none := hl
        cases hl2)
  obtain ⟨-, hb, -, -⟩ := h
  obtain ⟨i, nm, hp, -, hadj, -, heven, -⟩ := hb (by decide) (by decide)
  have hcands : ByeCandidates ["a", "b", "c"] [3, 3, 3] []
      = [(0, "a"), (1, "b"), (2, "c")] := by decide
  rw [hcands] at hp
  have hp2 : some ((0 : ℕ), "a") = some (i, nm) := hp
  injection hp2 with hp3
  rw [Prod.mk.injEq] at hp3
  obtain ⟨hi, hnm⟩ := hp3
  subst hi
  subst hnm
  exact ⟨hadj, heven⟩

theorem dvd_foldl_lcm_acc : ∀ (l : List ℕ) (a : ℕ), a ∣ l.foldl Nat.lcm a := by
  intro l
  induction l with
  | nil => intro a; exact dvd_refl a
  | cons x xs ih =>
    intro a
    rw [List.foldl_cons]
    exact dvd_trans (Nat.dvd_lcm_left a x) (ih (Nat.lcm a x))

theorem dvd_foldl_lcm : ∀ (l : List ℕ) (a d : ℕ), d ∈ l → d ∣ l.foldl Nat.lcm a := by
  intro l
  induction l with
  | nil =>
    intro a d hd
    cases hd
  | cons x xs ih =>
    intro a d hd
    rw [List.foldl_cons]
    rcases List.mem_cons.mp hd with rfl | hd
    · exact dvd_trans (Nat.dvd_lcm_right a d) (dvd_foldl_lcm_acc xs (Nat.lcm a d))
    · exact ih _ d hd

theorem pos_foldl_lcm : ∀ (l : List ℕ) (a : ℕ), 0 < a → (∀ d ∈ l, 0 < d) →
    0 < l.foldl Nat.lcm a := by
  intro l
  induction l with
  | nil => intro a ha _; exact ha
  | cons x xs ih =>
    intro a ha hall
    rw [List.foldl_cons]
    exact ih _ (Nat.lcm_pos ha (hall x (List.mem_cons_self x xs)))
      (fun d hd => hall d (List.mem_cons_of_mem x hd))

theorem den_getD_dvd_scoreLcm (scores : List ℚ) (i : ℕ) :
    (scores.getD i 0).den ∣ ScoreLcm scores := by
  rcases Nat.lt_or_ge i scores.length with hi | hi
  · have hmem : scores.getD i 0 ∈ scores := by
      rw [List.getD_eq_getElem?_getD, List.getElem?_eq_getElem hi]
      exact List.getElem_mem hi
    have hden : (scores.getD i 0).den ∈ (scores.map (fun s => s.den)).dedup := by
      rw [List.mem_dedup]
      exact List.mem_map_of_mem _ hmem
    unfold ScoreLcm
    have h := dvd_foldl_lcm _ 1 _ hden
    have hL : ((scores.map (fun s => s.den)).dedup).foldl Lcm 1
        = ((scores.map (fun s => s.den)).dedup).foldl Nat.lcm 1 := rfl
    rw [hL]
    exact h
  · rw [List.getD_eq_getElem?_getD, List.getElem?_eq_none hi]
    exact one_dvd _

theorem scoreLcm_pos (scores : List ℚ) : 0 < ScoreLcm scores := by
  unfold ScoreLcm
  have hL : ((scores.map (fun s => s.den)).dedup).foldl Lcm 1
      = ((scores.map (fun s => s.den)).dedup).foldl Nat.lcm 1 := rfl
  rw [hL]
  apply pos_foldl_lcm _ 1 (by omega)
  intro d hd
  rw [List.mem_dedup, List.mem_map] at hd
  obtain ⟨q, -, rfl⟩ := hd
  exact q.pos

theorem den_dvd_of_den_dvd_sub (x : ℚ) (L : ℕ) (hL : 0 < L)
    (sa sb : ℚ) (hx : x = sa - sb) (ha : sa.den ∣ L) (hb : sb.den ∣ L) :
    x.den ∣ L := by
  obtain ⟨ka, hka⟩ := ha
  obtain ⟨kb, hkb⟩ := hb
  have hmula : sa * (L : ℚ) = ((sa.num * ka : ℤ) : ℚ) := by
    rw [hka]
    push_cast
    rw [← mul_assoc]
    rw [Rat.mul_den_eq_num]
  have hmulb : sb * (L : ℚ) = ((sb.num * kb : ℤ) : ℚ) := by
    rw [hkb]
    push_cast
    rw [← mul_assoc]
    rw [Rat.mul_den_eq_num]
  have hxL : x * (L : ℚ) = ((sa.num * ka - sb.num * kb : ℤ) : ℚ) := by
    rw [hx, sub_mul, hmula, hmulb]
    push_cast
    ring
  have hLne : ((L : ℚ)) ≠ 0 := (Nat.cast_pos.mpr hL).ne'
  have hxdiv : x = ((sa.num * ka - sb.num * kb : ℤ) : ℚ) / ((L : ℤ) : ℚ) := by
    rw [← hxL]
    push_cast
    field_simp
  have hxdivInt : x = Rat.divInt (sa.num * ka - sb.num * kb) (L : ℤ) := by
    rw [Rat.divInt_eq_div]
    exact hxdiv
  have hdvd : ((x.den : ℤ)) ∣ (L : ℤ) := by
    rw [hxdivInt]
    exact Rat.den_dvd _ _
  exact_mod_cast hdvd

/-- Key divisibility fact behind the `assert` in `MismatchSum`: with
`L = ScoreLcm scores`, for every pair of indices the denominator of
`(scores[m] - scores[n])²` divides its numerator times `L²`. -/
theorem mismatch_den_dvd (scores : List ℚ) (m n : ℕ) :
    ((((scores.getD m 0 - scores.getD n 0) ^ 2).den : ℤ))
      ∣ ((scores.getD m 0 - scores.getD n 0) ^ 2).num * (ScoreLcm scores : ℤ) ^ 2 := by
  set x := scores.getD m 0 - scores.getD n 0 with hx
  have hxden : x.den ∣ ScoreLcm scores :=
    den_dvd_of_den_dvd_sub x (ScoreLcm scores) (scoreLcm_pos scores) _ _ hx
      (den_getD_dvd_scoreLcm scores m) (den_getD_dvd_scoreLcm scores n)
  have hsq : (x ^ 2).den = x.den * x.den := by
    rw [pow_two x]
    exact Rat.mul_self_den x
  have hdvd2 : (x ^ 2).den ∣ ScoreLcm scores * ScoreLcm scores := by
    rw [hsq]
    exact mul_dvd_mul hxden hxden
  have hdvd3 : (x ^ 2).den ∣ ScoreLcm scores ^ 2 := by
    rw [pow_two (ScoreLcm scores)]
    exact hdvd2
  have hdvd4 : ((x ^ 2).den : ℤ) ∣ (ScoreLcm scores : ℤ) ^ 2 := by
    exact_mod_cast hdvd3
  exact Dvd.dvd.mul_left hdvd4 _

theorem mapM_option_eq_some {γ δ : Type} (f : γ → Option δ) (g : γ → δ) :
    ∀ (l : List γ), (∀ x ∈ l, f x = some (g x)) → l.mapM f = some (l.map g) := by
  intro l
  induction l with
  | nil => intro _; rfl
  | cons x xs ih =>
    intro h
    rw [List.mapM_cons, h x (List.mem_cons_self x xs),
      ih (fun y hy => h y (List.mem_cons_of_mem x hy))]
    rfl

/-- C8: with `L` the least common multiple of all score denominators, for
every pair of players the scaled squared score difference is an exact
integer: its denominator divides its numerator times `L²` (so the
`assert` in `MismatchSum` never fails and `MismatchTerm` never returns
`none`), the integer the code computes equals `diff · L²` exactly as a
rational, it is non-negative, and the resulting metric is an exact
non-negative integer sum. -/
theorem mismatchSum_exact (scores : List ℚ) (m n : ℕ) (slots : List (ℕ × ℕ))
    (ρ : ℕ × ℕ → Bool) :
    ((((scores.getD m 0 - scores.getD n 0) ^ 2).den : ℤ))
        ∣ ((scores.getD m 0 - scores.getD n 0) ^ 2).num * (ScoreLcm scores : ℤ) ^ 2
    ∧ MismatchTerm scores (ScoreLcm scores) ρ (n, m) ≠ none
    ∧ ((((scores.getD m 0 - scores.getD n 0) ^ 2).num * (ScoreLcm scores : ℤ) ^ 2
          / (((scores.getD m 0 - scores.getD n 0) ^ 2).den : ℤ) : ℤ) : ℚ)
        = (scores.getD m 0 - scores.getD n 0) ^ 2 * (ScoreLcm scores : ℚ) ^ 2
    ∧ (0 : ℤ) ≤ ((scores.getD m 0 - scores.getD n 0) ^ 2).num * (ScoreLcm scores : ℤ) ^ 2
          / (((scores.getD m 0 - scores.getD n 0) ^ 2).den : ℤ)
    ∧ ∃ v : ℤ, MismatchSum slots scores (ScoreLcm scores) ρ = some v ∧ 0 ≤ v := by
  have hterm : ∀ (a b : ℕ),
      MismatchTerm scores (ScoreLcm scores) ρ (a, b)
        = some (if ρ (a, b) then
            ((scores.getD b 0 - scores.getD a 0) ^ 2).num * (ScoreLcm scores : ℤ) ^ 2
              / (((scores.getD b 0 - scores.getD a 0) ^ 2).den : ℤ)
          else 0) := by
    intro a b
    have hdvd := mismatch_den_dvd scores b a
    unfold MismatchTerm
    dsimp only
    rw [if_pos (Int.emod_eq_zero_of_dvd hdvd)]
  have hnum_nonneg : ∀ (a b : ℕ),
      (0 : ℤ) ≤ ((scores.getD b 0 - scores.getD a 0) ^ 2).num := by
    intro a b
    exact Rat.num_nonneg.mpr (sq_nonneg _)
  have hval_nonneg : ∀ (a b : ℕ),
      (0 : ℤ) ≤ ((scores.getD b 0 - scores.getD a 0) ^ 2).num * (ScoreLcm scores : ℤ) ^ 2
        / (((scores.getD b 0 - scores.getD a 0) ^ 2).den : ℤ) := by
    intro a b
    apply Int.ediv_nonneg
    · exact mul_nonneg (hnum_nonneg a b) (by positivity)
    · exact_mod_cast Nat.zero_le _
  refine ⟨mismatch_den_dvd scores m n, ?_, ?_, hval_nonneg n m, ?_⟩
  · rw [hterm n m]
    exact Option.some_ne_none _
  · have hden0 : ((((scores.getD m 0 - scores.getD n 0) ^ 2).den : ℚ)) ≠ 0 := by
      have hpos := ((scores.getD m 0 - scores.getD n 0) ^ 2).pos
      exact_mod_cast hpos.ne'
    rw [Int.cast_div_charZero (mismatch_den_dvd scores m n)]
    push_cast
    rw [div_eq_iff hden0]
    have hmul := Rat.mul_den_eq_num ((scores.getD m 0 - scores.getD n 0) ^ 2)
    rw [← hmul]
    ring
  · have hmapM := mapM_option_eq_some (MismatchTerm scores (ScoreLcm scores) ρ)
      (fun nm => if ρ nm then
          ((scores.getD nm.2 0 - scores.getD nm.1 0) ^ 2).num * (ScoreLcm scores : ℤ) ^ 2
            / (((scores.getD nm.2 0 - scores.getD nm.1 0) ^ 2).den : ℤ)
        else 0)
      (slots.filter (fun nm => decide (nm.1 < nm.2)))
      (fun x _ => by
        obtain ⟨a, b⟩ := x
        exact hterm a b)
    refine ⟨((slots.filter (fun nm => decide (nm.1 < nm.2))).map
        (fun nm => if ρ nm then
            ((scores.getD nm.2 0 - scores.getD nm.1 0) ^ 2).num * (ScoreLcm scores : ℤ) ^ 2
              / (((scores.getD nm.2 0 - scores.getD nm.1 0) ^ 2).den : ℤ)
          else 0)).sum, ?_, ?_⟩
    · unfold MismatchSum
      rw [hmapM]
      rfl
    · apply List.sum_nonneg
      intro v hv
      rw [List.mem_map] at hv
      obtain ⟨⟨a, b⟩, -, rfl⟩ := hv
      dsimp only
      by_cases hρ : ρ (a, b)
      · rw [if_pos hρ]
        exact hval_nonneg a b
      · rw [if_neg hρ]

/-- C9 counterexample: on 4 players each requesting 2 matches, the
expansion produces one DOUBLE node per player, a Hamiltonian tour over
them has 4 edges, all connecting different players with no HUB endpoint,
so the walk yields 4 real pairings — not 2 as claimed (4 is also the
value the spec's own sanity formula `⌊Σ requested/2⌋ = ⌊8/2⌋` demands). -/
theorem tsp_two_pairings_refuted :
    (RealPairings (ExpandNodes [2, 2, 2, 2])).length = 4
    ∧ (RealPairings (ExpandNodes [2, 2, 2, 2])).length ≠ 2 := by
  exact ⟨by decide, by decide⟩

/-- C9 amended: on 4 players each requesting 2 matches (whatever the
scores, which only bias the tour choice), every Hamiltonian tour of the
expanded node set yields exactly `⌊Σ requested/2⌋ = 4` real pairings and
zero HUB-incident real edges. -/
theorem tsp_instance (tour : List (ℕ × Role))
    (h : tour.Perm (ExpandNodes [2, 2, 2, 2])) :
    (RealPairings tour).length = ([2, 2, 2, 2] : List ℕ).sum / 2
    ∧ (RealPairings tour).length = 4
    ∧ ∀ e ∈ RealPairings tour, e.1.2 ≠ Role.hub ∧ e.2.2 ≠ Role.hub := by
  have hall : ∀ t ∈ (ExpandNodes [2, 2, 2, 2]).permutations',
      (RealPairings t).length = ([2, 2, 2, 2] : List ℕ).sum / 2
      ∧ (RealPairings t).length = 4
      ∧ ∀ e ∈ RealPairings t, e.1.2 ≠ Role.hub ∧ e.2.2 ≠ Role.hub := by decide
  exact hall tour (List.mem_permutations'.mpr h)

/-- C9 witness: the identity tour over the expanded nodes. -/
theorem tsp_instance_witness :
    (RealPairings (ExpandNodes [2, 2, 2, 2])).length = 4 :=
  (tsp_instance (ExpandNodes [2, 2, 2, 2]) (List.Perm.refl _)).2.1

/-- C10: in the heap model, `ArrayDecrement` returns a fresh list — a
reference distinct from its argument — leaves every pre-existing heap
cell (in particular its input) unchanged, and the fresh cell holds the
pointwise-decremented copy; `BlitzsteinDiaconis` copies its input before
any mutation, so the caller's degree-sequence cell is identical before
and after each call; consequently all `nCalls` calls made by
`ImportanceSampledBlitzsteinDiaconis` operate on the same degree
sequence — with a deterministic pick oracle, every sample an `ok` run
returns equals the pure `BlitzsteinDiaconis` of the original, unchanged
sequence. -/
theorem arrayDecrement_fresh_and_same_sequence
    (pick : List ℕ → List ℤ → Option ℕ) (fuel : ℕ)
    (idx : List ℕ) (r : ℕ) (h : Heap) (nCalls : ℕ) (hr : r < h.length) :
    ((ArrayDecrementH idx r h).1 ≠ r
      ∧ (∀ j, j < h.length → (ArrayDecrementH idx r h).2.getD j [] = h.getD j [])
      ∧ (ArrayDecrementH idx r h).2.getD (ArrayDecrementH idx r h).1 []
          = ArrayDecrement idx (h.getD r []))
    ∧ (BlitzsteinDiaconisH pick fuel r h).2.getD r [] = h.getD r []
    ∧ (ISBDH pick fuel nCalls r h).2.getD r [] = h.getD r []
    ∧ ∀ es, (ISBDH pick fuel nCalls r h).1 = .ok es →
        es.length = nCalls
          ∧ ∀ x ∈ es, BlitzsteinDiaconis pick fuel (h.getD r []) = .ok x := by
  obtain ⟨hfst, hlen2, hext, hcont⟩ := ArrayDecrementH_spec idx r h
  obtain ⟨bext, -, -⟩ := BlitzsteinDiaconisH_sim pick fuel r h
  obtain ⟨iext, iok⟩ := ISBDH_sim pick fuel nCalls r h hr
  refine ⟨⟨?_, hext.2, ?_⟩, bext.2 r hr, iext.2 r hr, iok⟩
  · rw [hfst]
    omega
  · rw [hfst]
    exact hcont

/-- C10 witness: heap with a single degree sequence `[2,2,2]`;
`ArrayDecrement` hands back a fresh reference, and two sampler calls
leave the caller's cell holding `[2,2,2]`. -/
theorem arrayDecrement_fresh_and_same_sequence_witness :
    (ArrayDecrementH [0] 0 [[2, 2, 2]]).1 ≠ 0
    ∧ (ISBDH pickFirst 20 2 0 [[2, 2, 2]]).2.getD 0 [] = [2, 2, 2] := by
  have h := arrayDecrement_fresh_and_same_sequence pickFirst 20 [0] 0 [[2, 2, 2]] 2
    (by decide)
  exact ⟨h.1.1, h.2.2.1⟩

end Swiss
